import Mathlib

/-!
Offsets table of the CNTK binary chunk deserializer: a shallow embedding of
`class OffsetsTable` from `Source/Readers/CNTKBinaryReader/BinaryChunkDeserializer.h`.

* The memory behind `byte* m_diskOffsetsTable` is a list of bytes; a load or a
  store that leaves the list has no defined result in the source and is `none`
  here.
* `size_t` values are naturals reduced modulo `2^64`, `int64_t` and `int32_t`
  values are integers obtained from their two's-complement bit patterns.
* Multi-byte loads and stores are little-endian, the native order of the
  targets the reader is built for.
* The constructor calls `Initialize()` before it assigns `m_offsetRowSize`; the
  content of that member during the call is indeterminate and is a parameter,
  `uninit`, of the embedded constructor.
-/

namespace CNTK

/-- One byte of memory. -/
abbrev Byte := Fin 256

/-- The signed value of the low `w` bits of `n` (two's complement). -/
def toSigned (w : Nat) (n : Nat) : Int :=
  if n % 2 ^ w < 2 ^ (w - 1) then ((n % 2 ^ w : Nat) : Int)
  else ((n % 2 ^ w : Nat) : Int) - ((2 ^ w : Nat) : Int)

/-- The `w`-bit unsigned bit pattern of an integer (conversion to an unsigned type). -/
def toUnsigned (w : Nat) (x : Int) : Nat :=
  (x % ((2 ^ w : Nat) : Int)).toNat

/-- Little-endian value of a run of bytes. -/
def decodeLE : List Byte → Nat
  | [] => 0
  | b :: bs => b.val + 256 * decodeLE bs

/-- Little-endian bytes, `k` of them, of a natural number. -/
def encodeLE : Nat → Nat → List Byte
  | 0, _ => []
  | k + 1, v => ⟨v % 256, Nat.mod_lt v (by decide)⟩ :: encodeLE k (v / 256)

/-- The `n` bytes at address `addr`, when they all lie inside the memory. -/
def readBytes (mem : List Byte) (addr n : Nat) : Option (List Byte) :=
  if addr + n ≤ mem.length then some ((mem.drop addr).take n) else none

/-- Memory after storing `bs` at address `addr`, when the store lies inside the memory. -/
def writeBytes (mem : List Byte) (addr : Nat) (bs : List Byte) : Option (List Byte) :=
  if addr + bs.length ≤ mem.length then
    some (mem.take addr ++ bs ++ mem.drop (addr + bs.length))
  else none

/-- Load through an `int64_t*`. -/
def loadInt64 (mem : List Byte) (addr : Nat) : Option Int :=
  (readBytes mem addr 8).map fun bs => toSigned 64 (decodeLE bs)

/-- Load through an `int32_t*`. -/
def loadInt32 (mem : List Byte) (addr : Nat) : Option Int :=
  (readBytes mem addr 4).map fun bs => toSigned 32 (decodeLE bs)

/-- Store through an `int64_t*`. -/
def storeInt64 (mem : List Byte) (addr : Nat) (v : Int) : Option (List Byte) :=
  writeBytes mem addr (encodeLE 8 (toUnsigned 64 v))

/-- Effect of `std::vector<size_t>::resize(n)`: keep the first `n` entries, pad with zeros. -/
def vectorResize (v : List Nat) (n : Nat) : List Nat :=
  v.take n ++ List.replicate (n - v.length) 0

/-- The data members of `class OffsetsTable`. -/
structure OffsetsTable where
  /-- Member `int64_t m_numBatches`. -/
  m_numBatches : Int
  /-- Member `size_t m_offsetRowSize`. -/
  m_offsetRowSize : Nat
  /-- The bytes that `byte* m_diskOffsetsTable` points to. -/
  m_diskOffsetsTable : List Byte
  /-- Member `vector<size_t> m_startIndex`. -/
  m_startIndex : List Nat
  deriving DecidableEq, Repr

namespace OffsetsTable

/-- Source: `sizeof(int64_t) + (1 + numSequences) * sizeof(int32_t)`, computed in `size_t`
and returned as `int64_t`. -/
def GetOffsetRowSize (numSequences : Nat) : Int :=
  toSigned 64 ((8 + ((1 + numSequences) % 2 ^ 64 * 4) % 2 ^ 64) % 2 ^ 64)

/-- Source: `*(int64_t*)(m_diskOffsetsTable + id*m_offsetRowSize) = newOffset`. -/
def SetOffset (t : OffsetsTable) (id : Nat) (newOffset : Int) : Option OffsetsTable :=
  (storeInt64 t.m_diskOffsetsTable (id * t.m_offsetRowSize % 2 ^ 64) newOffset).map
    fun mem => { t with m_diskOffsetsTable := mem }

/-- Source: `*(int64_t*)(m_diskOffsetsTable + index*m_offsetRowSize)`. -/
def GetOffset (t : OffsetsTable) (index : Nat) : Option Int :=
  loadInt64 t.m_diskOffsetsTable (index * t.m_offsetRowSize % 2 ^ 64)

/-- Source: `*(int32_t*)(m_diskOffsetsTable + index*m_offsetRowSize + sizeof(int64_t))`. -/
def GetNumSequences (t : OffsetsTable) (index : Nat) : Option Int :=
  loadInt32 t.m_diskOffsetsTable (index * t.m_offsetRowSize % 2 ^ 64 + 8)

/-- Source: a negative `stream` gives `GetNumSequences(index)`, otherwise the `int32_t` at
`m_diskOffsetsTable + index*m_offsetRowSize + sizeof(int64_t) + sizeof(int32_t)
+ stream*sizeof(int32_t)`. -/
def GetNumSamples (t : OffsetsTable) (index : Nat) (stream : Int) : Option Int :=
  if stream < 0 then GetNumSequences t index
  else
    loadInt32 t.m_diskOffsetsTable
      (index * t.m_offsetRowSize % 2 ^ 64 + 8 + 4 + toUnsigned 64 stream * 4 % 2 ^ 64)

/-- Source: `m_startIndex[index]`, a `size_t` returned as `int64_t`. -/
def GetStartIndex (t : OffsetsTable) (index : Nat) : Option Int :=
  (t.m_startIndex[index]?).map fun v => toSigned 64 v

/-- Source: `GetOffset(index + 1) - GetOffset(index)`, an `int64_t` difference returned as
`size_t`. -/
def GetChunkSize (t : OffsetsTable) (index : Nat) : Option Nat :=
  (GetOffset t ((index + 1) % 2 ^ 64)).bind fun hi =>
    (GetOffset t index).map fun lo =>
      toUnsigned 64 (toSigned 64 (toUnsigned 64 (hi - lo)))

/-- The body of the `for` loop of `Initialize`, run `k` more times from counter `c`:
`sequencesSeen += GetNumSequences(c-1); m_startIndex[c] = sequencesSeen;`. -/
def InitializeLoop (t : OffsetsTable) : Nat → Nat → Nat → List Nat → Option (List Nat)
  | 0, _, _, startIndex => some startIndex
  | k + 1, c, sequencesSeen, startIndex =>
    (GetNumSequences t (c - 1)).bind fun n =>
      InitializeLoop t k (c + 1) ((sequencesSeen + toUnsigned 64 n) % 2 ^ 64)
        (startIndex.set c ((sequencesSeen + toUnsigned 64 n) % 2 ^ 64))

/-- Source: `m_startIndex.resize(m_numBatches)` followed by the loop
`for (int64_t c = 1; c < m_numBatches; c++)`.  A negative `m_numBatches` asks `resize` for
at least `2^63` entries, which it refuses. -/
def Initialize (t : OffsetsTable) : Option OffsetsTable :=
  if t.m_numBatches < 0 then none
  else
    (InitializeLoop t (t.m_numBatches.toNat - 1) 1 0
        (vectorResize t.m_startIndex t.m_numBatches.toNat)).map
      fun v => { t with m_startIndex := v }

/-- The constructor `OffsetsTable(numBatches, numSequences, offsetsTable)`.  The member
initialisers set `m_numBatches` and `m_diskOffsetsTable`; the body runs `Initialize()` and
only afterwards assigns `m_offsetRowSize`.  `uninit` is the indeterminate content of
`m_offsetRowSize` during `Initialize()`. -/
def ctor (uninit : Nat) (numBatches numSequences : Nat) (offsetsTable : List Byte) :
    Option OffsetsTable :=
  (Initialize
      { m_numBatches := toSigned 64 numBatches
        m_offsetRowSize := uninit
        m_diskOffsetsTable := offsetsTable
        m_startIndex := [] }).map
    fun t => { t with m_offsetRowSize := toUnsigned 64 (GetOffsetRowSize numSequences) }

/-- The total of `GetNumSequences(j)` over the rows `j < k` of a finished table (a row
that cannot be read counts as 0). -/
def sequencesBefore (t : OffsetsTable) : Nat → Int
  | 0 => 0
  | k + 1 => sequencesBefore t k + (t.GetNumSequences k).getD 0

end OffsetsTable

/-- Index bytes of a file with three chunks and two streams (rows of 20 bytes):
chunk 0 at offset 0 with 2 sequences and sample counts 10 and 2, chunk 1 at offset 100 with
1 sequence and sample counts 5 and 1, chunk 2 at offset 150 with 4 sequences and sample
counts 8 and 4, and the sentinel row at offset 230. -/
def scenarioBytes : List Byte :=
  [0, 0, 0, 0, 0, 0, 0, 0,   2, 0, 0, 0,   10, 0, 0, 0,   2, 0, 0, 0,
   100, 0, 0, 0, 0, 0, 0, 0,   1, 0, 0, 0,   5, 0, 0, 0,   1, 0, 0, 0,
   150, 0, 0, 0, 0, 0, 0, 0,   4, 0, 0, 0,   8, 0, 0, 0,   4, 0, 0, 0,
   230, 0, 0, 0, 0, 0, 0, 0,   0, 0, 0, 0,   0, 0, 0, 0,   0, 0, 0, 0]

/-- The scenario table as the constructor leaves it when `m_offsetRowSize` already holds
the row width 20 during `Initialize()`. -/
def scenarioTable : OffsetsTable :=
  { m_numBatches := 3
    m_offsetRowSize := 20
    m_diskOffsetsTable := scenarioBytes
    m_startIndex := [0, 2, 3] }

/-- One row of the offset index as the file format documents it. -/
structure IndexRow where
  /-- Field `int64 byteOffset`. -/
  byteOffset : Int
  /-- Field `int32 sequenceCount`. -/
  sequenceCount : Int
  /-- Fields `int32 sampleCount_stream0 … sampleCount_streamN-1`. -/
  sampleCount : List Int
  deriving DecidableEq, Repr

/-- The fields of a row fit their declared types and there is one sample count per stream. -/
def IndexRow.WellTyped (numStreams : Nat) (r : IndexRow) : Prop :=
  (-2 ^ 63 ≤ r.byteOffset ∧ r.byteOffset < 2 ^ 63) ∧
  (-2 ^ 31 ≤ r.sequenceCount ∧ r.sequenceCount < 2 ^ 31) ∧
  r.sampleCount.length = numStreams ∧
  ∀ x ∈ r.sampleCount, -2 ^ 31 ≤ x ∧ x < 2 ^ 31

/-- Documented layout of the sample counts of a row: one little-endian `int32` each. -/
def specSampleBytes : List Int → List Byte
  | [] => []
  | x :: xs => encodeLE 4 (toUnsigned 32 x) ++ specSampleBytes xs

/-- Documented layout of a row:
`[int64 byteOffset][int32 sequenceCount][int32 sampleCount_stream0]…`. -/
def specRowBytes (r : IndexRow) : List Byte :=
  encodeLE 8 (toUnsigned 64 r.byteOffset) ++ encodeLE 4 (toUnsigned 32 r.sequenceCount) ++
    specSampleBytes r.sampleCount

/-- Documented layout of the offset index region: the rows back to back. -/
def specTableBytes : List IndexRow → List Byte
  | [] => []
  | r :: rs => specRowBytes r ++ specTableBytes rs

/-- The rows of the scenario file. -/
def scenarioRows : List IndexRow :=
  [⟨0, 2, [10, 2]⟩, ⟨100, 1, [5, 1]⟩, ⟨150, 4, [8, 4]⟩, ⟨230, 0, [0, 0]⟩]

/-- Index bytes of a file with three chunks and one stream (rows of 16 bytes): chunk 0 at
offset 0 with 2 sequences and 200 samples, chunk 1 at offset 50 with 1 sequence and 7
samples, chunk 2 at offset 80 with 3 sequences and 9 samples, and the sentinel row at
offset 120. -/
def oneStreamBytes : List Byte :=
  [0, 0, 0, 0, 0, 0, 0, 0,   2, 0, 0, 0,   200, 0, 0, 0,
   50, 0, 0, 0, 0, 0, 0, 0,   1, 0, 0, 0,   7, 0, 0, 0,
   80, 0, 0, 0, 0, 0, 0, 0,   3, 0, 0, 0,   9, 0, 0, 0,
   120, 0, 0, 0, 0, 0, 0, 0,   0, 0, 0, 0,   0, 0, 0, 0]

/-- Index bytes of a file with one chunk and no stream (rows of 12 bytes): chunk 0 at
offset `2^63 - 1` and the sentinel row at offset `-2^63`, both without sequences. -/
def farApartBytes : List Byte :=
  [255, 255, 255, 255, 255, 255, 255, 127,   0, 0, 0, 0,
   0, 0, 0, 0, 0, 0, 0, 128,   0, 0, 0, 0]

/-- A call of one of the public member functions of a finished table. -/
inductive Call where
  | GetOffset (index : Nat)
  | SetOffset (id : Nat) (newOffset : Int)
  | GetNumSequences (index : Nat)
  | GetNumSamples (index : Nat) (stream : Int)
  | GetStartIndex (index : Nat)
  | GetChunkSize (index : Nat)
  deriving DecidableEq, Repr

/-- What a call hands back: an `int64_t` or `int32_t`, a `size_t`, or nothing (`void`). -/
inductive Ret where
  | int (v : Int)
  | size (v : Nat)
  | void
  deriving DecidableEq, Repr

/-- The call is the mutator `SetOffset`. -/
def Call.isSetOffset : Call → Bool
  | .SetOffset _ _ => true
  | _ => false

/-- One call on a table: the returned value and the table after the call. -/
def OffsetsTable.call (t : OffsetsTable) : Call → Option (Ret × OffsetsTable)
  | .GetOffset index => (t.GetOffset index).map fun v => (Ret.int v, t)
  | .SetOffset id newOffset => (t.SetOffset id newOffset).map fun t' => (Ret.void, t')
  | .GetNumSequences index => (t.GetNumSequences index).map fun v => (Ret.int v, t)
  | .GetNumSamples index stream => (t.GetNumSamples index stream).map fun v => (Ret.int v, t)
  | .GetStartIndex index => (t.GetStartIndex index).map fun v => (Ret.int v, t)
  | .GetChunkSize index => (t.GetChunkSize index).map fun v => (Ret.size v, t)

/-! ## Machine integers -/

theorem toUnsigned_toSigned_64 (n : Nat) : toUnsigned 64 (toSigned 64 n) = n % 2 ^ 64 := by
  unfold toUnsigned toSigned
  norm_num
  split <;> omega

theorem toUnsigned_toSigned_32 (n : Nat) : toUnsigned 32 (toSigned 32 n) = n % 2 ^ 32 := by
  unfold toUnsigned toSigned
  norm_num
  split <;> omega

theorem toSigned_toUnsigned_64 (x : Int) (hlo : -2 ^ 63 ≤ x) (hhi : x < 2 ^ 63) :
    toSigned 64 (toUnsigned 64 x) = x := by
  unfold toUnsigned toSigned
  norm_num
  split <;> omega

theorem toSigned_toUnsigned_32 (x : Int) (hlo : -2 ^ 31 ≤ x) (hhi : x < 2 ^ 31) :
    toSigned 32 (toUnsigned 32 x) = x := by
  unfold toUnsigned toSigned
  norm_num
  split <;> omega

theorem toUnsigned_lt_64 (x : Int) : toUnsigned 64 x < 2 ^ 64 := by
  unfold toUnsigned
  norm_num
  omega

theorem toUnsigned_lt_32 (x : Int) : toUnsigned 32 x < 2 ^ 32 := by
  unfold toUnsigned
  norm_num
  omega

theorem toSigned_64_range (n : Nat) : -2 ^ 63 ≤ toSigned 64 n ∧ toSigned 64 n < 2 ^ 63 := by
  unfold toSigned
  norm_num
  split <;> omega

theorem toSigned_64_of_lt (n : Nat) (h : n < 2 ^ 63) : toSigned 64 n = (n : Int) := by
  unfold toSigned
  norm_num
  split <;> omega

/-! ## Little-endian byte runs -/

theorem encodeLE_length (k v : Nat) : (encodeLE k v).length = k := by
  induction k generalizing v with
  | zero => rfl
  | succ k ih => simp [encodeLE, ih]

theorem decodeLE_encodeLE (k v : Nat) : decodeLE (encodeLE k v) = v % 256 ^ k := by
  induction k generalizing v with
  | zero => simp [encodeLE, decodeLE, Nat.mod_one]
  | succ k ih =>
    simp only [encodeLE, decodeLE, ih]
    rw [pow_succ, Nat.mul_comm (256 ^ k) 256, Nat.mod_mul]

theorem decodeLE_lt (bs : List Byte) : decodeLE bs < 256 ^ bs.length := by
  induction bs with
  | nil => simp [decodeLE]
  | cons b bs ih =>
    have hb := b.isLt
    simp only [decodeLE, List.length_cons, pow_succ]
    omega

theorem decodeLE_append (xs ys : List Byte) :
    decodeLE (xs ++ ys) = decodeLE xs + 256 ^ xs.length * decodeLE ys := by
  induction xs with
  | nil => simp [decodeLE]
  | cons b xs ih =>
    rw [List.cons_append]
    simp only [decodeLE, ih, List.length_cons, pow_succ]
    ring

/-- The low four bytes of an eight-byte little-endian load. -/
theorem decodeLE_take_4_of_8 (l : List Byte) (h : 8 ≤ l.length) :
    decodeLE (l.take 4) = decodeLE (l.take 8) % 2 ^ 32 := by
  have h8 : l.take 8 = l.take 4 ++ (l.drop 4).take 4 := List.take_add l 4 4
  have hl : (l.take 4).length = 4 := by
    rw [List.length_take]
    omega
  have hlt := decodeLE_lt (l.take 4)
  rw [hl] at hlt
  rw [h8, decodeLE_append, hl]
  norm_num at hlt ⊢
  omega

/-! ## Memory loads and stores -/

theorem readBytes_isSome_iff (mem : List Byte) (addr n : Nat) :
    (readBytes mem addr n).isSome ↔ addr + n ≤ mem.length := by
  unfold readBytes
  split <;> simp [*]

theorem readBytes_eq_none_iff (mem : List Byte) (addr n : Nat) :
    readBytes mem addr n = none ↔ mem.length < addr + n := by
  unfold readBytes
  split
  · simp
    omega
  · simp
    omega

theorem readBytes_append_mid (pre mid post : List Byte) :
    readBytes (pre ++ mid ++ post) pre.length mid.length = some mid := by
  unfold readBytes
  rw [if_pos (by simp)]
  simp [List.append_assoc]

theorem readBytes_length (mem : List Byte) (addr n : Nat) (bs : List Byte)
    (h : readBytes mem addr n = some bs) : bs.length = n := by
  unfold readBytes at h
  split at h
  · cases h
    simp
    omega
  · cases h

theorem loadInt64_of_le (mem : List Byte) (addr : Nat) (h : addr + 8 ≤ mem.length) :
    loadInt64 mem addr = some (toSigned 64 (decodeLE ((mem.drop addr).take 8))) := by
  simp [loadInt64, readBytes, h]

theorem loadInt32_of_le (mem : List Byte) (addr : Nat) (h : addr + 4 ≤ mem.length) :
    loadInt32 mem addr = some (toSigned 32 (decodeLE ((mem.drop addr).take 4))) := by
  simp [loadInt32, readBytes, h]

theorem loadInt64_of_lt (mem : List Byte) (addr : Nat) (h : mem.length < addr + 8) :
    loadInt64 mem addr = none := by
  simp [loadInt64, readBytes, Nat.not_le.mpr h]

theorem loadInt64_range (mem : List Byte) (addr : Nat) (v : Int)
    (h : loadInt64 mem addr = some v) : -2 ^ 63 ≤ v ∧ v < 2 ^ 63 := by
  unfold loadInt64 at h
  cases hr : readBytes mem addr 8 with
  | none => simp [hr] at h
  | some bs =>
    simp [hr] at h
    rw [← h]
    exact toSigned_64_range _

theorem readBytes_at (mem pre mid post : List Byte) (addr n : Nat)
    (hm : mem = pre ++ mid ++ post) (ha : addr = pre.length) (hn : n = mid.length) :
    readBytes mem addr n = some mid := by
  subst hm ha hn
  exact readBytes_append_mid pre mid post

theorem writeBytes_length (mem mem' bs : List Byte) (a : Nat)
    (h : writeBytes mem a bs = some mem') : mem'.length = mem.length := by
  unfold writeBytes at h
  split at h
  · cases h
    simp only [List.length_append, List.length_take, List.length_drop]
    omega
  · cases h

/-- A store changes no byte outside the stored range. -/
theorem writeBytes_getElem?_outside (mem mem' bs : List Byte) (a k : Nat)
    (h : writeBytes mem a bs = some mem') (hk : k < a ∨ a + bs.length ≤ k) :
    mem'[k]? = mem[k]? := by
  unfold writeBytes at h
  split at h
  · rename_i hle
    cases h
    have hta : (mem.take a).length = a := by
      rw [List.length_take]
      omega
    rcases hk with hk | hk
    · rw [List.append_assoc, List.getElem?_append_left (by omega),
        List.getElem?_take_of_lt hk]
    · rw [List.getElem?_append_right (by rw [List.length_append, hta]; exact hk),
        List.getElem?_drop, List.length_append, hta]
      congr 1
      omega
  · cases h

/-- A load from a range that a store did not touch sees the old bytes. -/
theorem readBytes_writeBytes_disjoint (mem mem' bs : List Byte) (a b n : Nat)
    (h : writeBytes mem a bs = some mem') (hd : b + n ≤ a ∨ a + bs.length ≤ b) :
    readBytes mem' b n = readBytes mem b n := by
  have hlen := writeBytes_length mem mem' bs a h
  unfold readBytes
  rw [hlen]
  split
  · congr 1
    apply List.ext_getElem?
    intro k
    rw [List.getElem?_take, List.getElem?_take]
    split
    · rw [List.getElem?_drop, List.getElem?_drop]
      exact writeBytes_getElem?_outside mem mem' bs a (b + k) h (by omega)
    · rfl
  · rfl

/-- A load of the range just stored sees the stored bytes. -/
theorem readBytes_writeBytes_same (mem mem' bs : List Byte) (a : Nat)
    (h : writeBytes mem a bs = some mem') : readBytes mem' a bs.length = some bs := by
  unfold writeBytes at h
  split at h
  · rename_i hle
    cases h
    exact readBytes_at _ (mem.take a) bs (mem.drop (a + bs.length)) a bs.length rfl
      (by rw [List.length_take]; omega) rfl
  · cases h

/-! ## The documented layout -/

theorem specSampleBytes_append (xs ys : List Int) :
    specSampleBytes (xs ++ ys) = specSampleBytes xs ++ specSampleBytes ys := by
  induction xs with
  | nil => rfl
  | cons x xs ih => simp [specSampleBytes, ih]

theorem specSampleBytes_length (xs : List Int) :
    (specSampleBytes xs).length = 4 * xs.length := by
  induction xs with
  | nil => rfl
  | cons x xs ih =>
    simp only [specSampleBytes, List.length_append, encodeLE_length, ih, List.length_cons]
    omega

theorem specRowBytes_length (r : IndexRow) :
    (specRowBytes r).length = 8 + 4 * (1 + r.sampleCount.length) := by
  simp only [specRowBytes, List.length_append, encodeLE_length, specSampleBytes_length]
  omega

theorem specTableBytes_append (xs ys : List IndexRow) :
    specTableBytes (xs ++ ys) = specTableBytes xs ++ specTableBytes ys := by
  induction xs with
  | nil => rfl
  | cons x xs ih => simp [specTableBytes, ih]

theorem specTableBytes_length (numStreams : Nat) (rows : List IndexRow)
    (h : ∀ r ∈ rows, r.sampleCount.length = numStreams) :
    (specTableBytes rows).length = rows.length * (8 + 4 * (1 + numStreams)) := by
  induction rows with
  | nil => simp [specTableBytes]
  | cons r rs ih =>
    have hr := h r (List.mem_cons_self r rs)
    have ih2 := ih (fun x hx => h x (List.mem_cons_of_mem r hx))
    simp only [specTableBytes, List.length_append, specRowBytes_length, hr, ih2,
      List.length_cons]
    ring

/-- The index region splits around row `i`. -/
theorem specTableBytes_split (numStreams : Nat) (rows : List IndexRow) (i : Nat) (r : IndexRow)
    (h : ∀ x ∈ rows, x.sampleCount.length = numStreams) (hr : rows[i]? = some r) :
    ∃ pre post, specTableBytes rows = pre ++ specRowBytes r ++ post ∧
      pre.length = i * (8 + 4 * (1 + numStreams)) := by
  have hi : i < rows.length := by
    rcases Nat.lt_or_ge i rows.length with h1 | h1
    · exact h1
    · rw [List.getElem?_eq_none h1] at hr
      cases hr
  have hget : rows[i] = r := by
    rw [List.getElem?_eq_getElem hi] at hr
    exact Option.some.inj hr
  have hd : rows.drop i = r :: rows.drop (i + 1) := by
    rw [← hget]
    exact List.drop_eq_getElem_cons hi
  refine ⟨specTableBytes (rows.take i), specTableBytes (rows.drop (i + 1)), ?_, ?_⟩
  · conv_lhs => rw [← List.take_append_drop i rows]
    rw [specTableBytes_append, hd]
    simp [specTableBytes, List.append_assoc]
  · rw [specTableBytes_length numStreams (rows.take i)
      (fun x hx => h x (List.mem_of_mem_take hx))]
    rw [List.length_take, Nat.min_eq_left (Nat.le_of_lt hi)]

/-- The sample counts split around stream `s`. -/
theorem specSampleBytes_split (xs : List Int) (s : Nat) (x : Int) (hx : xs[s]? = some x) :
    ∃ pre post, specSampleBytes xs = pre ++ encodeLE 4 (toUnsigned 32 x) ++ post ∧
      pre.length = 4 * s := by
  have hi : s < xs.length := by
    rcases Nat.lt_or_ge s xs.length with h1 | h1
    · exact h1
    · rw [List.getElem?_eq_none h1] at hx
      cases hx
  have hget : xs[s] = x := by
    rw [List.getElem?_eq_getElem hi] at hx
    exact Option.some.inj hx
  have hd : xs.drop s = x :: xs.drop (s + 1) := by
    rw [← hget]
    exact List.drop_eq_getElem_cons hi
  refine ⟨specSampleBytes (xs.take s), specSampleBytes (xs.drop (s + 1)), ?_, ?_⟩
  · conv_lhs => rw [← List.take_append_drop s xs]
    rw [specSampleBytes_append, hd]
    simp [specSampleBytes, List.append_assoc]
  · rw [specSampleBytes_length, List.length_take, Nat.min_eq_left (Nat.le_of_lt hi)]

/-- Row `i` of a buffer holding at least `n` rows of `w` bytes ends inside the buffer. -/
theorem row_end_le (i n w len : Nat) (hi : i < n) (hbuf : n * w ≤ len) :
    i * w + w ≤ len := by
  have h1 : (i + 1) * w ≤ n * w := Nat.mul_le_mul_right w hi
  have h2 : (i + 1) * w = i * w + w := by ring
  omega

namespace OffsetsTable

/-- A negative stream argument is answered by `GetNumSequences`. -/
theorem GetNumSamples_of_neg (t : OffsetsTable) (i : Nat) (stream : Int) (h : stream < 0) :
    t.GetNumSamples i stream = t.GetNumSequences i := by
  unfold GetNumSamples
  rw [if_pos h]

/-- A row that ends inside the buffer has its offset read. -/
theorem GetOffset_of_row_in_buffer (t : OffsetsTable) (i : Nat)
    (hrow : 8 ≤ t.m_offsetRowSize)
    (hend : i * t.m_offsetRowSize + t.m_offsetRowSize ≤ t.m_diskOffsetsTable.length)
    (hlen : t.m_diskOffsetsTable.length < 2 ^ 64) :
    ∃ v, t.GetOffset i = some v ∧ -2 ^ 63 ≤ v ∧ v < 2 ^ 63 := by
  have a0 : i * t.m_offsetRowSize % 2 ^ 64 = i * t.m_offsetRowSize :=
    Nat.mod_eq_of_lt (by omega)
  have g0 := loadInt64_of_le t.m_diskOffsetsTable (i * t.m_offsetRowSize) (by omega)
  have hg : t.GetOffset i = some (toSigned 64 (decodeLE ((t.m_diskOffsetsTable.drop
      (i * t.m_offsetRowSize)).take 8))) := by
    unfold GetOffset
    rw [a0]
    exact g0
  exact ⟨_, hg, toSigned_64_range _⟩

/-- The value `GetChunkSize` returns once both offsets are read. -/
theorem GetChunkSize_of_offsets (t : OffsetsTable) (i : Nat) (lo hi : Int)
    (hi64 : i + 1 < 2 ^ 64)
    (hlo : t.GetOffset i = some lo) (hhi : t.GetOffset (i + 1) = some hi) :
    t.GetChunkSize i = some ((hi - lo) % 2 ^ 64).toNat := by
  unfold GetChunkSize
  rw [Nat.mod_eq_of_lt hi64, hhi, hlo]
  simp only [Option.some_bind, Option.map_some', Option.some.injEq]
  rw [toUnsigned_toSigned_64, Nat.mod_eq_of_lt (toUnsigned_lt_64 _)]
  unfold toUnsigned
  norm_num

/-- What the constructor stores in the members other than `m_startIndex`. -/
theorem ctor_fields (uninit numBatches numSequences : Nat) (bytes : List Byte)
    (t : OffsetsTable) (h : ctor uninit numBatches numSequences bytes = some t) :
    t.m_offsetRowSize = (8 + 4 * (1 + numSequences)) % 2 ^ 64 ∧
      t.m_diskOffsetsTable = bytes ∧ t.m_numBatches = toSigned 64 numBatches ∧
      0 ≤ t.m_numBatches := by
  unfold ctor Initialize at h
  split at h
  · simp at h
  · rename_i hneg
    simp only [Option.map_map, Option.map_eq_some'] at h
    obtain ⟨v, _, hv⟩ := h
    subst hv
    refine ⟨?_, rfl, rfl, ?_⟩
    · show toUnsigned 64 (GetOffsetRowSize numSequences) = _
      unfold GetOffsetRowSize
      rw [toUnsigned_toSigned_64]
      omega
    · exact Int.not_lt.mp hneg

theorem GetNumSequences_isSome_iff (t : OffsetsTable) (j : Nat) :
    (t.GetNumSequences j).isSome ↔
      j * t.m_offsetRowSize % 2 ^ 64 + 8 + 4 ≤ t.m_diskOffsetsTable.length := by
  unfold GetNumSequences loadInt32
  rw [Option.isSome_map', readBytes_isSome_iff]

/-- The loop of `Initialize` finishes when each of its reads stays inside the buffer. -/
theorem InitializeLoop_isSome (t : OffsetsTable) (k c seen : Nat) (startIndex : List Nat)
    (h : ∀ j, c ≤ j → j < c + k → (t.GetNumSequences (j - 1)).isSome) :
    (InitializeLoop t k c seen startIndex).isSome := by
  induction k generalizing c seen startIndex with
  | zero => rfl
  | succ k ih =>
    unfold InitializeLoop
    have h0 := h c (Nat.le_refl c) (by omega)
    obtain ⟨n, hn⟩ := Option.isSome_iff_exists.mp h0
    rw [hn]
    simp only [Option.some_bind]
    exact ih (c + 1) _ _ (fun j hj1 hj2 => h j (by omega) (by omega))

/-- The constructor returns a table when the chunk count is a non-negative `int64_t` and the
reads of `Initialize()`, made with the stride found in `m_offsetRowSize`, stay inside the
buffer. -/
theorem ctor_isSome (uninit numBatches numSequences : Nat) (bytes : List Byte)
    (hnb : numBatches < 2 ^ 63)
    (hreads : ∀ j, j + 1 < numBatches → j * uninit % 2 ^ 64 + 8 + 4 ≤ bytes.length) :
    ∃ t, ctor uninit numBatches numSequences bytes = some t := by
  apply Option.isSome_iff_exists.mp
  unfold ctor Initialize
  simp only [toSigned_64_of_lt numBatches hnb]
  rw [if_neg (by omega)]
  simp only [Option.isSome_map']
  apply InitializeLoop_isSome
  intro j hj1 hj2
  rw [GetNumSequences_isSome_iff]
  simp only [Int.toNat_ofNat] at hj2
  exact hreads (j - 1) (by omega)

/-- The accessors of a table laid over the documented bytes return the fields of row `i`. -/
theorem accessors_of_specTableBytes (t : OffsetsTable) (numStreams : Nat)
    (rows : List IndexRow) (i : Nat) (r : IndexRow)
    (hw : t.m_offsetRowSize = 8 + 4 * (1 + numStreams))
    (hb : t.m_diskOffsetsTable = specTableBytes rows)
    (hwt : ∀ x ∈ rows, x.WellTyped numStreams)
    (hfit : rows.length * (8 + 4 * (1 + numStreams)) < 2 ^ 64)
    (hr : rows[i]? = some r) :
    t.GetOffset i = some r.byteOffset ∧ t.GetNumSequences i = some r.sequenceCount ∧
      ∀ (s : Nat) (x : Int), r.sampleCount[s]? = some x →
        t.GetNumSamples i (s : Int) = some x := by
  have hlen : ∀ x ∈ rows, x.sampleCount.length = numStreams := fun x hx => (hwt x hx).2.2.1
  have hi : i < rows.length := by
    rcases Nat.lt_or_ge i rows.length with h1 | h1
    · exact h1
    · rw [List.getElem?_eq_none h1] at hr
      cases hr
  have hmem : r ∈ rows := List.mem_iff_getElem?.mpr ⟨i, hr⟩
  obtain ⟨⟨o1, o2⟩, ⟨c1, c2⟩, hsl, hsr⟩ := hwt r hmem
  obtain ⟨pre, post, hsplit, hpre⟩ := specTableBytes_split numStreams rows i r hlen hr
  have hiw : i * (8 + 4 * (1 + numStreams)) < 2 ^ 64 :=
    lt_of_le_of_lt (Nat.mul_le_mul_right _ (Nat.le_of_lt hi)) hfit
  have haddr : i * t.m_offsetRowSize % 2 ^ 64 = pre.length := by
    rw [hw, Nat.mod_eq_of_lt hiw, hpre]
  have h8 : (256 : Nat) ^ 8 = 2 ^ 64 := by norm_num
  have h4 : (256 : Nat) ^ 4 = 2 ^ 32 := by norm_num
  refine ⟨?_, ?_, ?_⟩
  · unfold GetOffset loadInt64
    rw [readBytes_at t.m_diskOffsetsTable pre (encodeLE 8 (toUnsigned 64 r.byteOffset))
      (encodeLE 4 (toUnsigned 32 r.sequenceCount) ++ specSampleBytes r.sampleCount ++ post)
      _ 8 (by rw [hb, hsplit]; simp [specRowBytes, List.append_assoc]) haddr
      (encodeLE_length 8 _).symm]
    simp only [Option.map_some', Option.some.injEq]
    rw [decodeLE_encodeLE, h8, Nat.mod_eq_of_lt (toUnsigned_lt_64 _)]
    exact toSigned_toUnsigned_64 _ o1 o2
  · unfold GetNumSequences loadInt32
    rw [readBytes_at t.m_diskOffsetsTable (pre ++ encodeLE 8 (toUnsigned 64 r.byteOffset))
      (encodeLE 4 (toUnsigned 32 r.sequenceCount)) (specSampleBytes r.sampleCount ++ post)
      _ 4 (by rw [hb, hsplit]; simp [specRowBytes, List.append_assoc])
      (by rw [haddr, List.length_append, encodeLE_length])
      (encodeLE_length 4 _).symm]
    simp only [Option.map_some', Option.some.injEq]
    rw [decodeLE_encodeLE, h4, Nat.mod_eq_of_lt (toUnsigned_lt_32 _)]
    exact toSigned_toUnsigned_32 _ c1 c2
  · intro s x hx
    obtain ⟨x1, x2⟩ := hsr x (List.mem_iff_getElem?.mpr ⟨s, hx⟩)
    obtain ⟨spre, spost, hs, hsl2⟩ := specSampleBytes_split r.sampleCount s x hx
    have hslt : s < numStreams := by
      rcases Nat.lt_or_ge s r.sampleCount.length with h1 | h1
      · omega
      · rw [List.getElem?_eq_none h1] at hx
        cases hx
    have hwfit : 8 + 4 * (1 + numStreams) ≤ rows.length * (8 + 4 * (1 + numStreams)) :=
      Nat.le_mul_of_pos_left _ (by omega)
    have hsu : toUnsigned 64 (s : Int) * 4 % 2 ^ 64 = 4 * s := by
      unfold toUnsigned
      norm_num
      omega
    unfold GetNumSamples loadInt32
    rw [if_neg (by omega)]
    rw [readBytes_at t.m_diskOffsetsTable
      (pre ++ encodeLE 8 (toUnsigned 64 r.byteOffset) ++
        encodeLE 4 (toUnsigned 32 r.sequenceCount) ++ spre)
      (encodeLE 4 (toUnsigned 32 x)) (spost ++ post)
      _ 4 (by rw [hb, hsplit]; simp [specRowBytes, hs, List.append_assoc])
      (by rw [haddr, hsu]; simp only [List.length_append, encodeLE_length, hsl2])
      (encodeLE_length 4 _).symm]
    simp only [Option.map_some', Option.some.injEq]
    rw [decodeLE_encodeLE, h4, Nat.mod_eq_of_lt (toUnsigned_lt_32 _)]
    exact toSigned_toUnsigned_32 _ x1 x2

/-- The loop of `Initialize` leaves the entries below its counter alone. -/
theorem InitializeLoop_below (t : OffsetsTable) (k c seen : Nat) (startIndex v : List Nat)
    (h : InitializeLoop t k c seen startIndex = some v) (j : Nat) (hj : j < c) :
    v[j]? = startIndex[j]? := by
  induction k generalizing c seen startIndex with
  | zero =>
    unfold InitializeLoop at h
    cases h
    rfl
  | succ k ih =>
    unfold InitializeLoop at h
    cases hn : t.GetNumSequences (c - 1) with
    | none => simp [hn] at h
    | some n =>
      rw [hn] at h
      simp only [Option.some_bind] at h
      rw [ih (c + 1) _ _ h (by omega)]
      exact List.getElem?_set_ne (by omega)

/-- The loop of `Initialize` keeps the length of `m_startIndex`. -/
theorem InitializeLoop_length (t : OffsetsTable) (k c seen : Nat) (startIndex v : List Nat)
    (h : InitializeLoop t k c seen startIndex = some v) : v.length = startIndex.length := by
  induction k generalizing c seen startIndex with
  | zero =>
    unfold InitializeLoop at h
    cases h
    rfl
  | succ k ih =>
    unfold InitializeLoop at h
    cases hn : t.GetNumSequences (c - 1) with
    | none => simp [hn] at h
    | some n =>
      rw [hn] at h
      simp only [Option.some_bind] at h
      rw [ih (c + 1) _ _ h, List.length_set]

/-- Each pass of the loop of `Initialize` adds the count it reads to the entry before. -/
theorem InitializeLoop_step (t : OffsetsTable) (k c seen : Nat) (startIndex v : List Nat)
    (h : InitializeLoop t k c seen startIndex = some v)
    (hc : 1 ≤ c) (hlen : c + k ≤ startIndex.length) (hprev : startIndex[c - 1]? = some seen)
    (j : Nat) (hj1 : c ≤ j) (hj2 : j < c + k) :
    ∃ p n, v[j - 1]? = some p ∧ t.GetNumSequences (j - 1) = some n ∧
      v[j]? = some ((p + toUnsigned 64 n) % 2 ^ 64) := by
  induction k generalizing c seen startIndex with
  | zero => omega
  | succ k ih =>
    unfold InitializeLoop at h
    cases hn : t.GetNumSequences (c - 1) with
    | none => simp [hn] at h
    | some n =>
      rw [hn] at h
      simp only [Option.some_bind] at h
      have hset : (startIndex.set c ((seen + toUnsigned 64 n) % 2 ^ 64))[c]? =
          some ((seen + toUnsigned 64 n) % 2 ^ 64) :=
        List.getElem?_set_self (by omega)
      rcases Nat.eq_or_lt_of_le hj1 with heq | hlt
      · subst heq
        refine ⟨seen, n, ?_, hn, ?_⟩
        · rw [InitializeLoop_below t k (c + 1) _ _ v h (c - 1) (by omega),
            List.getElem?_set_ne (by omega)]
          exact hprev
        · rw [InitializeLoop_below t k (c + 1) _ _ v h c (by omega)]
          exact hset
      · exact ih (c + 1) _ _ h (by omega) (by rw [List.length_set]; omega)
          (by simpa using hset) (by omega) (by omega)

/-- What the constructor leaves in `m_startIndex`: entry `i` is entry `i-1` plus the count
that `GetNumSequences(i-1)` read while `m_offsetRowSize` still held `uninit`. -/
theorem ctor_startIndex_step (uninit numBatches numSequences : Nat) (bytes : List Byte)
    (t : OffsetsTable) (hsize : numBatches < 2 ^ 64)
    (h : ctor uninit numBatches numSequences bytes = some t)
    (i : Nat) (h0 : 0 < i) (hi : i < numBatches) :
    ∃ p n, t.m_startIndex[i - 1]? = some p ∧
      GetNumSequences { t with m_offsetRowSize := uninit } (i - 1) = some n ∧
      t.m_startIndex[i]? = some ((p + toUnsigned 64 n) % 2 ^ 64) := by
  obtain ⟨-, -, hnb, hnn⟩ := ctor_fields _ _ _ _ t h
  have hlt : numBatches < 2 ^ 63 := by
    rw [hnb] at hnn
    unfold toSigned at hnn
    norm_num at hnn
    split at hnn <;> omega
  unfold ctor Initialize at h
  simp only [toSigned_64_of_lt numBatches hlt] at h
  rw [if_neg (by omega)] at h
  simp only [Option.map_map, Option.map_eq_some', Int.toNat_ofNat] at h
  obtain ⟨v, hv, ht⟩ := h
  have hres : vectorResize [] numBatches = List.replicate numBatches 0 := by
    simp [vectorResize]
  rw [hres] at hv
  obtain ⟨p, n, h1, h2, h3⟩ := InitializeLoop_step _ _ 1 0 _ v hv (Nat.le_refl 1)
    (by rw [List.length_replicate]; omega)
    (List.getElem?_replicate_of_lt (by omega)) i (by omega) (by omega)
  subst ht
  exact ⟨p, n, h1, h2, h3⟩

/-- Entry 0 of `m_startIndex` is the zero that `resize` put there. -/
theorem ctor_startIndex_zero (uninit numBatches numSequences : Nat) (bytes : List Byte)
    (t : OffsetsTable) (hpos : 1 ≤ numBatches) (hsize : numBatches < 2 ^ 64)
    (h : ctor uninit numBatches numSequences bytes = some t) :
    t.m_startIndex[0]? = some 0 := by
  obtain ⟨-, -, hnb, hnn⟩ := ctor_fields _ _ _ _ t h
  have hlt : numBatches < 2 ^ 63 := by
    rw [hnb] at hnn
    unfold toSigned at hnn
    norm_num at hnn
    split at hnn <;> omega
  unfold ctor Initialize at h
  simp only [toSigned_64_of_lt numBatches hlt] at h
  rw [if_neg (by omega)] at h
  simp only [Option.map_map, Option.map_eq_some', Int.toNat_ofNat] at h
  obtain ⟨v, hv, ht⟩ := h
  have h0 := InitializeLoop_below _ _ _ _ _ _ hv 0 (by omega)
  have hz : (vectorResize [] numBatches)[0]? = some 0 := by
    unfold vectorResize
    simp only [List.take_nil, List.nil_append, List.length_nil, Nat.sub_zero]
    exact List.getElem?_replicate_of_lt hpos
  subst ht
  show v[0]? = some 0
  rw [h0, hz]

/-- Partial totals of non-negative counts do not decrease. -/
theorem sequencesBefore_mono (t : OffsetsTable) (numBatches : Nat)
    (hnonneg : ∀ k n, k + 1 < numBatches → t.GetNumSequences k = some n → 0 ≤ n)
    (a b : Nat) (hab : a ≤ b) (hb : b + 1 ≤ numBatches) :
    t.sequencesBefore a ≤ t.sequencesBefore b := by
  induction b with
  | zero =>
    have : a = 0 := by omega
    subst this
    exact le_refl _
  | succ b ih =>
    rcases Nat.eq_or_lt_of_le hab with heq | hlt
    · subst heq
      exact le_refl _
    · have h1 := ih (by omega) (by omega)
      have h2 : 0 ≤ (t.GetNumSequences b).getD 0 := by
        cases hn : t.GetNumSequences b with
        | none => simp
        | some n => simpa using hnonneg b n (by omega) hn
      show t.sequencesBefore a ≤ t.sequencesBefore b + (t.GetNumSequences b).getD 0
      omega

/-- Had `m_offsetRowSize` held the row width while `Initialize()` ran, the finished table
would satisfy `GetStartIndex(i) = GetStartIndex(i-1) + GetNumSequences(i-1)` in `int64_t`
arithmetic. -/
theorem startIndex_recurrence_of_initialised_stride (numBatches numSequences : Nat)
    (bytes : List Byte) (t : OffsetsTable) (hsize : numBatches < 2 ^ 64)
    (hw : 8 + 4 * (1 + numSequences) < 2 ^ 64)
    (h : ctor (8 + 4 * (1 + numSequences)) numBatches numSequences bytes = some t)
    (i : Nat) (h0 : 0 < i) (hi : i < numBatches) :
    ∃ p n, t.GetStartIndex (i - 1) = some p ∧ t.GetNumSequences (i - 1) = some n ∧
      t.GetStartIndex i = some (toSigned 64 (toUnsigned 64 (p + n))) := by
  obtain ⟨q, n, h1, h2, h3⟩ := ctor_startIndex_step _ _ _ _ t hsize h i h0 hi
  obtain ⟨f1, -, -, -⟩ := ctor_fields _ _ _ _ t h
  rw [Nat.mod_eq_of_lt hw] at f1
  have ht : ({ t with m_offsetRowSize := 8 + 4 * (1 + numSequences) } : OffsetsTable) = t := by
    rw [← f1]
  rw [ht] at h2
  refine ⟨toSigned 64 q, n, ?_, h2, ?_⟩
  · unfold GetStartIndex
    rw [h1]
    rfl
  · unfold GetStartIndex
    rw [h3]
    simp only [Option.map_some', Option.some.injEq]
    congr 1
    unfold toUnsigned toSigned
    norm_num
    split <;> omega

/-- Had `m_offsetRowSize` held the row width while `Initialize()` ran, then for
non-negative sequence counts whose total fits in 63 bits `GetStartIndex(k)` would be the
total of `GetNumSequences(j)` over `j < k`, and so would never decrease. -/
theorem startIndex_running_total_of_initialised_stride (numBatches numSequences : Nat)
    (bytes : List Byte) (t : OffsetsTable) (hsize : numBatches < 2 ^ 64)
    (hw : 8 + 4 * (1 + numSequences) < 2 ^ 64)
    (h : ctor (8 + 4 * (1 + numSequences)) numBatches numSequences bytes = some t)
    (hnonneg : ∀ k n, k + 1 < numBatches → t.GetNumSequences k = some n → 0 ≤ n)
    (htotal : t.sequencesBefore (numBatches - 1) < 2 ^ 63)
    (k : Nat) (hk : k < numBatches) :
    t.GetStartIndex k = some (t.sequencesBefore k) ∧
      ∀ j, k ≤ j → j < numBatches → t.sequencesBefore k ≤ t.sequencesBefore j := by
  have hraw : ∀ m, m < numBatches →
      t.m_startIndex[m]? = some (t.sequencesBefore m).toNat ∧ 0 ≤ t.sequencesBefore m := by
    intro m
    induction m with
    | zero =>
      intro hm
      exact ⟨ctor_startIndex_zero _ _ _ _ t (by omega) hsize h, le_refl _⟩
    | succ m ih =>
      intro hm
      obtain ⟨ih1, ih2⟩ := ih (by omega)
      obtain ⟨f1, -, -, -⟩ := ctor_fields _ _ _ _ t h
      rw [Nat.mod_eq_of_lt hw] at f1
      have ht : ({ t with m_offsetRowSize := 8 + 4 * (1 + numSequences) } : OffsetsTable)
          = t := by
        rw [← f1]
      obtain ⟨p, n, h1, h2, h3⟩ := ctor_startIndex_step _ _ _ _ t hsize h (m + 1)
        (by omega) hm
      rw [ht] at h2
      simp only [Nat.add_sub_cancel] at h1 h2
      rw [ih1] at h1
      have hp : p = (t.sequencesBefore m).toNat := (Option.some.inj h1).symm
      have hn0 : 0 ≤ n := hnonneg m n hm h2
      have hsb : t.sequencesBefore (m + 1) = t.sequencesBefore m + n := by
        show t.sequencesBefore m + (t.GetNumSequences m).getD 0 = _
        rw [h2]
        rfl
      have hle := sequencesBefore_mono t numBatches hnonneg (m + 1) (numBatches - 1)
        (by omega) (by omega)
      refine ⟨?_, by omega⟩
      rw [h3, hsb, hp]
      congr 1
      unfold toUnsigned
      norm_num
      omega
  obtain ⟨r1, r2⟩ := hraw k hk
  have hle := sequencesBefore_mono t numBatches hnonneg k (numBatches - 1) (by omega)
    (by omega)
  refine ⟨?_, fun j hj1 hj2 => sequencesBefore_mono t numBatches hnonneg k j hj1 (by omega)⟩
  unfold GetStartIndex
  rw [r1]
  simp only [Option.map_some', Option.some.injEq]
  rw [toSigned_64_of_lt _ (by omega)]
  omega

end OffsetsTable

namespace OffsetsTable

/-- Over a buffer of exactly `numChunks + 1` rows of width `8 + 4*(1+numStreams)`, row
`i ≤ numChunks` lies inside the buffer, and `GetOffset(i)`, `GetNumSequences(i)` and
`GetNumSamples(i, s)` for `s < numStreams` return the loads of the byte ranges
`[i*W, i*W+8)`, `[i*W+8, i*W+12)` and `[i*W+12+4*s, i*W+16+4*s)`, which follow one another
inside `[i*W, (i+1)*W)`. -/
theorem accessor_reads_stay_in_row (t : OffsetsTable) (numStreams numChunks i : Nat)
    (hw : t.m_offsetRowSize = 8 + 4 * (1 + numStreams))
    (hbuf : t.m_diskOffsetsTable.length = (numChunks + 1) * t.m_offsetRowSize)
    (hlen : t.m_diskOffsetsTable.length < 2 ^ 64) (hi : i ≤ numChunks) :
    (i + 1) * t.m_offsetRowSize ≤ t.m_diskOffsetsTable.length ∧
    (t.GetOffset i = loadInt64 t.m_diskOffsetsTable (i * t.m_offsetRowSize) ∧
      (t.GetOffset i).isSome ∧ i * t.m_offsetRowSize + 8 ≤ (i + 1) * t.m_offsetRowSize) ∧
    (t.GetNumSequences i = loadInt32 t.m_diskOffsetsTable (i * t.m_offsetRowSize + 8) ∧
      (t.GetNumSequences i).isSome ∧
      i * t.m_offsetRowSize + 8 + 4 ≤ (i + 1) * t.m_offsetRowSize) ∧
    ∀ s : Nat, s < numStreams →
      t.GetNumSamples i (s : Int) =
        loadInt32 t.m_diskOffsetsTable (i * t.m_offsetRowSize + 8 + 4 + 4 * s) ∧
      (t.GetNumSamples i (s : Int)).isSome ∧
      i * t.m_offsetRowSize + 8 + 4 + 4 * s + 4 ≤ (i + 1) * t.m_offsetRowSize := by
  have hend := row_end_le i (numChunks + 1) t.m_offsetRowSize _ (by omega) (Nat.le_of_eq hbuf.symm)
  have hs : (i + 1) * t.m_offsetRowSize = i * t.m_offsetRowSize + t.m_offsetRowSize := by ring
  have hmod : i * t.m_offsetRowSize % 2 ^ 64 = i * t.m_offsetRowSize :=
    Nat.mod_eq_of_lt (by omega)
  have hoff : t.GetOffset i = loadInt64 t.m_diskOffsetsTable (i * t.m_offsetRowSize) := by
    unfold GetOffset
    rw [hmod]
  have hseq : t.GetNumSequences i =
      loadInt32 t.m_diskOffsetsTable (i * t.m_offsetRowSize + 8) := by
    unfold GetNumSequences
    rw [hmod]
  refine ⟨by omega, ⟨hoff, ?_, by omega⟩, ⟨hseq, ?_, by omega⟩, ?_⟩
  · rw [hoff, loadInt64_of_le _ _ (by omega)]
    rfl
  · rw [hseq, loadInt32_of_le _ _ (by omega)]
    rfl
  · intro s hs'
    have hsu : toUnsigned 64 (s : Int) * 4 % 2 ^ 64 = 4 * s := by
      unfold toUnsigned
      norm_num
      omega
    have hsam : t.GetNumSamples i (s : Int) =
        loadInt32 t.m_diskOffsetsTable (i * t.m_offsetRowSize + 8 + 4 + 4 * s) := by
      unfold GetNumSamples
      rw [if_neg (by omega), hmod, hsu]
    refine ⟨hsam, ?_, by omega⟩
    rw [hsam, loadInt32_of_le _ _ (by omega)]
    rfl

/-- Over a buffer holding the `numChunks + 1` rows, `GetChunkSize(i)` for `i < numChunks`
reads both offsets inside the buffer and returns a value. -/
theorem GetChunkSize_isSome_of_rows_in_buffer (t : OffsetsTable) (numChunks i : Nat)
    (hrow : 8 ≤ t.m_offsetRowSize)
    (hbuf : (numChunks + 1) * t.m_offsetRowSize ≤ t.m_diskOffsetsTable.length)
    (hlen : t.m_diskOffsetsTable.length < 2 ^ 64) (hi : i < numChunks) :
    (t.GetChunkSize i).isSome := by
  have e0 := row_end_le i (numChunks + 1) t.m_offsetRowSize _ (by omega) hbuf
  have e1 := row_end_le (i + 1) (numChunks + 1) t.m_offsetRowSize _ (by omega) hbuf
  have hw : i + 1 ≤ (i + 1) * t.m_offsetRowSize := Nat.le_mul_of_pos_right _ (by omega)
  obtain ⟨lo, G0, -, -⟩ := t.GetOffset_of_row_in_buffer i hrow e0 hlen
  obtain ⟨hi', G1, -, -⟩ := t.GetOffset_of_row_in_buffer (i + 1) hrow e1 hlen
  rw [t.GetChunkSize_of_offsets i lo hi' (by omega) G0 G1]
  rfl

/-- Had `m_offsetRowSize` held the row width while `Initialize()` ran, the loop would read
rows `0 .. numChunks - 2` inside a buffer of `numChunks + 1` rows and the constructor would
return a table. -/
theorem ctor_isSome_of_initialised_stride (numChunks numStreams : Nat) (bytes : List Byte)
    (hbuf : (numChunks + 1) * (8 + 4 * (1 + numStreams)) ≤ bytes.length)
    (hlen : bytes.length < 2 ^ 64) :
    ∃ t, ctor (8 + 4 * (1 + numStreams)) numChunks numStreams bytes = some t := by
  have h12 : (numChunks + 1) * 12 ≤ (numChunks + 1) * (8 + 4 * (1 + numStreams)) :=
    Nat.mul_le_mul_left _ (by omega)
  apply ctor_isSome _ _ _ _ (by omega)
  intro j hj
  have hend := row_end_le j (numChunks + 1) (8 + 4 * (1 + numStreams)) _ (by omega) hbuf
  rw [Nat.mod_eq_of_lt (by omega)]
  omega

end OffsetsTable

/-! ## The scenario file -/

theorem specTableBytes_scenarioRows : specTableBytes scenarioRows = scenarioBytes := by
  decide

theorem ctor_scenario_with_row_width :
    OffsetsTable.ctor 20 3 2 scenarioBytes = some scenarioTable := by
  decide

/-! ## The claims -/

/-- C1, evaluated on the code.  The claim: for a constructed table and `0 < i < numChunks`,
`GetStartIndex(i) = GetStartIndex(i-1) + GetNumSequences(i-1)`, with `GetStartIndex(2) = 3`
for three chunks whose first two hold 2 and 1 sequences.  The constructor runs
`Initialize()` before it assigns `m_offsetRowSize`; when the member still holds 0 every
step of the loop reads the count of row 0, and the finished table returns
`GetStartIndex(2) = 4` although `GetStartIndex(1) = 2` and `GetNumSequences(1) = 1`. -/
theorem C1_start_index_recurrence_broken_by_construction_order :
    ∃ t, OffsetsTable.ctor 0 3 2 scenarioBytes = some t ∧
      t.GetStartIndex 1 = some 2 ∧ t.GetNumSequences 1 = some 1 ∧
      t.GetStartIndex 2 = some 4 ∧ t.GetNumSequences 0 = some 2 := by
  refine ⟨_, rfl, ?_, ?_, ?_, ?_⟩ <;> decide

/-- C2: in a table whose buffer holds the `m_numBatches + 1` rows and whose offsets are
non-decreasing from each row to the next (the sentinel row included), for every chunk id
`i < m_numBatches` both offsets are read, `GetChunkSize(i)` returns the integer
`GetOffset(i+1) - GetOffset(i)`, and that integer is not negative. -/
theorem C2_chunk_size_is_offset_difference (t : OffsetsTable)
    (hrow : 8 ≤ t.m_offsetRowSize)
    (hbuf : (t.m_numBatches.toNat + 1) * t.m_offsetRowSize ≤ t.m_diskOffsetsTable.length)
    (hlen : t.m_diskOffsetsTable.length < 2 ^ 64)
    (hmono : ∀ j, j < t.m_numBatches.toNat → ∀ lo hi, t.GetOffset j = some lo →
      t.GetOffset (j + 1) = some hi → lo ≤ hi)
    (i : Nat) (hi : i < t.m_numBatches.toNat) :
    ∃ lo hi, t.GetOffset i = some lo ∧ t.GetOffset (i + 1) = some hi ∧
      t.GetChunkSize i = some (hi - lo).toNat ∧
      (((hi - lo).toNat : Nat) : Int) = hi - lo ∧ 0 ≤ hi - lo := by
  have e0 := row_end_le i (t.m_numBatches.toNat + 1) t.m_offsetRowSize _ (by omega) hbuf
  have e1 := row_end_le (i + 1) (t.m_numBatches.toNat + 1) t.m_offsetRowSize _ (by omega) hbuf
  have hw : i + 1 ≤ (i + 1) * t.m_offsetRowSize := Nat.le_mul_of_pos_right _ (by omega)
  obtain ⟨lo, G0, l0, l1⟩ := t.GetOffset_of_row_in_buffer i hrow e0 hlen
  obtain ⟨hi', G1, h0, h1⟩ := t.GetOffset_of_row_in_buffer (i + 1) hrow e1 hlen
  have hle := hmono i hi _ _ G0 G1
  refine ⟨lo, hi', G0, G1, ?_, by omega, by omega⟩
  rw [t.GetChunkSize_of_offsets i lo hi' (by omega) G0 G1]
  congr 1
  omega

/-- C2 at the scenario table: chunk 2 is 80 bytes, the sentinel offset 230 minus 150. -/
theorem C2_chunk_size_is_offset_difference_witness :
    ∃ lo hi, scenarioTable.GetOffset 2 = some lo ∧ scenarioTable.GetOffset (2 + 1) = some hi ∧
      scenarioTable.GetChunkSize 2 = some (hi - lo).toNat ∧
      (((hi - lo).toNat : Nat) : Int) = hi - lo ∧ 0 ≤ hi - lo :=
  C2_chunk_size_is_offset_difference scenarioTable (by decide) (by decide) (by decide)
    (by
      intro j hj lo hi h0 h1
      have hj3 : j < 3 := hj
      have e0 : scenarioTable.GetOffset 0 = some 0 := by decide
      have e1 : scenarioTable.GetOffset 1 = some 100 := by decide
      have e2 : scenarioTable.GetOffset 2 = some 150 := by decide
      have e3 : scenarioTable.GetOffset 3 = some 230 := by decide
      have hcases : j = 0 ∨ j = 1 ∨ j = 2 := by omega
      rcases hcases with rfl | rfl | rfl
      · rw [e0] at h0
        rw [e1] at h1
        cases h0
        cases h1
        decide
      · rw [e1] at h0
        rw [e2] at h1
        cases h0
        cases h1
        decide
      · rw [e2] at h0
        rw [e3] at h1
        cases h0
        cases h1
        decide)
    2 (by decide)

/-- C3: decoding undoes the documented row layout.  For `numChunks + 1` well-typed rows
serialised back to back, each `8 + 4*(1+numStreams)` bytes wide, the constructor returns a
table (its `Initialize()` reads, made at the stride `uninit`, staying inside the bytes) and
for every row index `i ≤ numChunks` that table returns the row's `byteOffset` from
`GetOffset(i)`, its `sequenceCount` from `GetNumSequences(i)` and, for every stream
`s < numStreams`, its `sampleCount[s]` from `GetNumSamples(i, s)`. -/
theorem C3_decoding_undoes_documented_layout (uninit numChunks numStreams : Nat)
    (rows : List IndexRow)
    (hrows : rows.length = numChunks + 1)
    (hwt : ∀ r ∈ rows, r.WellTyped numStreams)
    (hfit : (numChunks + 1) * (8 + 4 * (1 + numStreams)) < 2 ^ 64)
    (hinit : ∀ j, j + 1 < numChunks →
      j * uninit % 2 ^ 64 + 8 + 4 ≤ (specTableBytes rows).length) :
    ∃ t, OffsetsTable.ctor uninit numChunks numStreams (specTableBytes rows) = some t ∧
      ∀ i, i ≤ numChunks → ∃ r, rows[i]? = some r ∧
        (specRowBytes r).length = 8 + 4 * (1 + numStreams) ∧
        t.GetOffset i = some r.byteOffset ∧
        t.GetNumSequences i = some r.sequenceCount ∧
        ∀ s : Nat, s < numStreams → ∃ x, r.sampleCount[s]? = some x ∧
          t.GetNumSamples i (s : Int) = some x := by
  have hw1 : numChunks + 1 ≤ (numChunks + 1) * (8 + 4 * (1 + numStreams)) :=
    Nat.le_mul_of_pos_right _ (by omega)
  have hw2 : 8 + 4 * (1 + numStreams) ≤ (numChunks + 1) * (8 + 4 * (1 + numStreams)) :=
    Nat.le_mul_of_pos_left _ (by omega)
  have hw3 : (numChunks + 1) * 12 ≤ (numChunks + 1) * (8 + 4 * (1 + numStreams)) :=
    Nat.mul_le_mul_left _ (by omega)
  obtain ⟨t, ht⟩ := OffsetsTable.ctor_isSome uninit numChunks numStreams
    (specTableBytes rows) (by omega) hinit
  obtain ⟨f1, f2, -, -⟩ := OffsetsTable.ctor_fields _ _ _ _ t ht
  rw [Nat.mod_eq_of_lt (by omega)] at f1
  refine ⟨t, ht, ?_⟩
  intro i hi
  have hil : i < rows.length := by omega
  have hr : rows[i]? = some rows[i] := List.getElem?_eq_getElem hil
  have hmem : rows[i] ∈ rows := List.getElem_mem hil
  obtain ⟨a1, a2, a3⟩ := t.accessors_of_specTableBytes numStreams rows i rows[i] f1 f2 hwt
    (by rw [hrows]; exact hfit) hr
  refine ⟨rows[i], hr, ?_, a1, a2, ?_⟩
  · rw [specRowBytes_length, (hwt _ hmem).2.2.1]
  · intro s hs
    have hsl : s < rows[i].sampleCount.length := by rw [(hwt _ hmem).2.2.1]; exact hs
    exact ⟨_, List.getElem?_eq_getElem hsl, a3 s _ (List.getElem?_eq_getElem hsl)⟩

/-- C3 at the scenario rows, with `m_offsetRowSize` holding 0 during `Initialize()`. -/
theorem C3_decoding_undoes_documented_layout_witness :
    ∃ t, OffsetsTable.ctor 0 3 2 (specTableBytes scenarioRows) = some t ∧
      ∀ i, i ≤ 3 → ∃ r, scenarioRows[i]? = some r ∧
        (specRowBytes r).length = 8 + 4 * (1 + 2) ∧
        t.GetOffset i = some r.byteOffset ∧
        t.GetNumSequences i = some r.sequenceCount ∧
        ∀ s : Nat, s < 2 → ∃ x, r.sampleCount[s]? = some x ∧
          t.GetNumSamples i (s : Int) = some x :=
  C3_decoding_undoes_documented_layout 0 3 2 scenarioRows rfl
    (by
      intro r hr
      simp only [scenarioRows, List.mem_cons, List.mem_singleton, List.not_mem_nil,
        or_false] at hr
      rcases hr with rfl | rfl | rfl | rfl <;>
        (unfold IndexRow.WellTyped; simp))
    (by norm_num)
    (by
      intro j _
      have hl : (specTableBytes scenarioRows).length = 80 := by decide
      rw [hl]
      simp)

/-- C4: with the "all streams" argument, `-1` or any other negative stream,
`GetNumSamples(i, stream)` is `GetNumSequences(i)`. -/
theorem C4_negative_stream_gives_sequence_count (t : OffsetsTable) (i : Nat) (stream : Int)
    (h : stream < 0) : t.GetNumSamples i stream = t.GetNumSequences i := by
  unfold OffsetsTable.GetNumSamples
  rw [if_pos h]

/-- C4 at chunk 1 of the scenario table: the sentinel `-1` returns its sequence count 1. -/
theorem C4_negative_stream_gives_sequence_count_witness :
    scenarioTable.GetNumSamples 1 (-1) = scenarioTable.GetNumSequences 1 ∧
      scenarioTable.GetNumSequences 1 = some 1 :=
  ⟨C4_negative_stream_gives_sequence_count scenarioTable 1 (-1) (by decide), by decide⟩

/-- C5 fails as stated: on the scenario table (two streams) `GetNumSamples(0, 2)` is not
rejected, it returns 100, the low half of the offset of row 1. -/
theorem C5_stream_index_not_checked_counterexample :
    ∃ t, OffsetsTable.ctor 0 3 2 scenarioBytes = some t ∧
      t.GetNumSamples 0 2 = some 100 ∧ t.GetNumSamples 0 2 ≠ none ∧
      t.GetOffset 1 = some 100 := by
  refine ⟨_, rfl, ?_, ?_, ?_⟩ <;> decide

/-- C5 as amended: `GetNumSamples` checks no stream index.  In a table of row width
`8 + 4*(1+numStreams)`, a stream argument `s ≥ 0` whose four bytes at `12 + 4*s` past the
start of row `i` lie inside the buffer returns those bytes as an `int32`; for
`s = numStreams` and a row `i` followed by another row these are the first four bytes of
row `i+1`, so the call returns the low 32 bits of `GetOffset(i+1)`. -/
theorem C5_stream_index_past_last_reads_next_row (t : OffsetsTable) (numStreams i : Nat)
    (hw : t.m_offsetRowSize = 8 + 4 * (1 + numStreams))
    (hnext : (i + 1) * t.m_offsetRowSize + 8 ≤ t.m_diskOffsetsTable.length)
    (hlen : t.m_diskOffsetsTable.length < 2 ^ 64) :
    (∃ o, t.GetOffset (i + 1) = some o ∧
      t.GetNumSamples i (numStreams : Int) = some (toSigned 32 (toUnsigned 64 o % 2 ^ 32))) ∧
    ∀ s : Nat, i * t.m_offsetRowSize + 12 + 4 * s + 4 ≤ t.m_diskOffsetsTable.length →
      t.GetNumSamples i (s : Int) = some (toSigned 32 (decodeLE
        ((t.m_diskOffsetsTable.drop (i * t.m_offsetRowSize + 12 + 4 * s)).take 4))) := by
  have hgen : ∀ s : Nat, i * t.m_offsetRowSize + 12 + 4 * s + 4 ≤ t.m_diskOffsetsTable.length →
      t.GetNumSamples i (s : Int) = some (toSigned 32 (decodeLE
        ((t.m_diskOffsetsTable.drop (i * t.m_offsetRowSize + 12 + 4 * s)).take 4))) := by
    intro s hs
    have hsu : toUnsigned 64 (s : Int) * 4 % 2 ^ 64 = 4 * s := by
      unfold toUnsigned
      norm_num
      omega
    unfold OffsetsTable.GetNumSamples
    rw [if_neg (by omega), hsu, Nat.mod_eq_of_lt (by omega)]
    exact loadInt32_of_le _ _ (by omega)
  refine ⟨?_, hgen⟩
  have hmul : (i + 1) * t.m_offsetRowSize = i * t.m_offsetRowSize + 12 + 4 * numStreams := by
    rw [hw]
    ring
  have hoff : t.GetOffset (i + 1) = some (toSigned 64 (decodeLE
      ((t.m_diskOffsetsTable.drop ((i + 1) * t.m_offsetRowSize)).take 8))) := by
    unfold OffsetsTable.GetOffset
    rw [Nat.mod_eq_of_lt (by omega)]
    exact loadInt64_of_le _ _ hnext
  refine ⟨_, hoff, ?_⟩
  rw [hgen numStreams (by omega), ← hmul, toUnsigned_toSigned_64]
  have hlt := decodeLE_lt ((t.m_diskOffsetsTable.drop ((i + 1) * t.m_offsetRowSize)).take 8)
  have hl8 : ((t.m_diskOffsetsTable.drop ((i + 1) * t.m_offsetRowSize)).take 8).length = 8 := by
    rw [List.length_take, List.length_drop]
    omega
  rw [hl8] at hlt
  have h8 : (256 : Nat) ^ 8 = 2 ^ 64 := by norm_num
  rw [h8] at hlt
  rw [decodeLE_take_4_of_8 _ (by rw [List.length_drop]; omega),
    Nat.mod_eq_of_lt hlt]

/-- C5 as amended, at the scenario table: `GetNumSamples(0, 2)` returns the low 32 bits of
`GetOffset(1)`. -/
theorem C5_stream_index_past_last_reads_next_row_witness :
    (∃ o, scenarioTable.GetOffset (0 + 1) = some o ∧
      scenarioTable.GetNumSamples 0 ((2 : Nat) : Int) =
        some (toSigned 32 (toUnsigned 64 o % 2 ^ 32))) ∧
    ∀ s : Nat, 0 * scenarioTable.m_offsetRowSize + 12 + 4 * s + 4 ≤
        scenarioTable.m_diskOffsetsTable.length →
      scenarioTable.GetNumSamples 0 (s : Int) = some (toSigned 32 (decodeLE
        ((scenarioTable.m_diskOffsetsTable.drop
          (0 * scenarioTable.m_offsetRowSize + 12 + 4 * s)).take 4))) :=
  C5_stream_index_past_last_reads_next_row scenarioTable 2 0 (by decide) (by decide)
    (by decide)

/-- C6 fails as stated: on the scenario table (three chunks) `GetOffset(3)` is not
rejected, it returns the sentinel offset 230, which `GetChunkSize(2)` uses. -/
theorem C6_sentinel_offset_is_returned_counterexample :
    ∃ t, OffsetsTable.ctor 0 3 2 scenarioBytes = some t ∧ t.m_numBatches = 3 ∧
      t.GetOffset 3 = some 230 ∧ t.GetOffset 3 ≠ none ∧ t.GetChunkSize 2 = some 80 := by
  refine ⟨_, rfl, ?_, ?_, ?_, ?_⟩ <;> decide

/-- C6 as amended: `GetOffset` compares its argument with no chunk count.  Over a buffer of
exactly `numChunks + 1` rows, `GetOffset(numChunks)` returns the first eight bytes of the
sentinel row, and for `chunkId > numChunks` (row position below `2^64`) the eight bytes lie
outside the buffer, where the source has no defined result and the embedding none. -/
theorem C6_offset_defined_up_to_sentinel (t : OffsetsTable) (numChunks : Nat)
    (hrow : 8 ≤ t.m_offsetRowSize)
    (hbuf : t.m_diskOffsetsTable.length = (numChunks + 1) * t.m_offsetRowSize)
    (hlen : t.m_diskOffsetsTable.length < 2 ^ 64) :
    t.GetOffset numChunks = some (toSigned 64 (decodeLE
        ((t.m_diskOffsetsTable.drop (numChunks * t.m_offsetRowSize)).take 8))) ∧
    ∀ chunkId, numChunks < chunkId → chunkId * t.m_offsetRowSize < 2 ^ 64 →
      t.GetOffset chunkId = none := by
  have hs : (numChunks + 1) * t.m_offsetRowSize =
      numChunks * t.m_offsetRowSize + t.m_offsetRowSize := by ring
  constructor
  · unfold OffsetsTable.GetOffset
    rw [Nat.mod_eq_of_lt (by omega)]
    exact loadInt64_of_le _ _ (by omega)
  · intro chunkId hc hlt
    have hge : (numChunks + 1) * t.m_offsetRowSize ≤ chunkId * t.m_offsetRowSize :=
      Nat.mul_le_mul_right _ hc
    unfold OffsetsTable.GetOffset
    rw [Nat.mod_eq_of_lt hlt]
    exact loadInt64_of_lt _ _ (by omega)

/-- C6 as amended, at the scenario table: `GetOffset(3)` is read from the sentinel row and
later rows are outside the buffer. -/
theorem C6_offset_defined_up_to_sentinel_witness :
    scenarioTable.GetOffset 3 = some (toSigned 64 (decodeLE
        ((scenarioTable.m_diskOffsetsTable.drop (3 * scenarioTable.m_offsetRowSize)).take 8))) ∧
    ∀ chunkId, 3 < chunkId → chunkId * scenarioTable.m_offsetRowSize < 2 ^ 64 →
      scenarioTable.GetOffset chunkId = none :=
  C6_offset_defined_up_to_sentinel scenarioTable 3 (by decide) (by decide) (by decide)

/-- C7: every table the constructor returns for `numChunks ≥ 1` has `GetStartIndex(0) = 0`:
`resize` fills `m_startIndex` with zeros and the loop, starting at 1, never writes
entry 0. -/
theorem C7_start_index_of_first_chunk_is_zero (uninit numChunks numStreams : Nat)
    (bytes : List Byte) (t : OffsetsTable)
    (hpos : 1 ≤ numChunks) (hsize : numChunks < 2 ^ 64)
    (hctor : OffsetsTable.ctor uninit numChunks numStreams bytes = some t) :
    t.GetStartIndex 0 = some 0 := by
  have h0 := OffsetsTable.ctor_startIndex_zero uninit numChunks numStreams bytes t hpos hsize
    hctor
  unfold OffsetsTable.GetStartIndex
  rw [h0]
  rfl

/-- C7 at the scenario file, with `m_offsetRowSize` holding 0 during `Initialize()`. -/
theorem C7_start_index_of_first_chunk_is_zero_witness :
    ∃ t, OffsetsTable.ctor 0 3 2 scenarioBytes = some t ∧ t.GetStartIndex 0 = some 0 :=
  ⟨_, rfl, C7_start_index_of_first_chunk_is_zero 0 3 2 scenarioBytes _ (by decide)
    (by decide) rfl⟩

/-- C8, evaluated on the code.  The claim: the start index never decreases when the
sequence counts are non-negative.  Three chunks with counts 2, 1 and 3, built while
`m_offsetRowSize` still holds 1: the second step of the loop reads the four bytes at
address 9, whose top byte is the low byte 200 of a sample count, as a negative count, and
the finished table has `GetStartIndex(1) = 2` above `GetStartIndex(2) = -939524094`. -/
theorem C8_start_index_decreases_after_misread_count :
    ∃ t, OffsetsTable.ctor 1 3 1 oneStreamBytes = some t ∧
      t.GetNumSequences 0 = some 2 ∧ t.GetNumSequences 1 = some 1 ∧
      t.GetNumSequences 2 = some 3 ∧
      t.GetStartIndex 1 = some 2 ∧ t.GetStartIndex 2 = some (-939524094) := by
  refine ⟨_, rfl, ?_, ?_, ?_, ?_, ?_⟩ <;> decide

/-- C9 fails as stated: `SetOffset` is a public operation and it rewrites the table bytes;
after `SetOffset(1, 7)` on the scenario table the bytes differ and `GetOffset(1)` has gone
from 100 to 7. -/
theorem C9_SetOffset_rewrites_table_bytes_counterexample :
    ∃ t t', OffsetsTable.ctor 0 3 2 scenarioBytes = some t ∧
      t.call (Call.SetOffset 1 7) = some (Ret.void, t') ∧
      t'.m_diskOffsetsTable ≠ t.m_diskOffsetsTable ∧
      t.GetOffset 1 = some 100 ∧ t'.GetOffset 1 = some 7 := by
  refine ⟨_, _, rfl, rfl, ?_, ?_, ?_⟩ <;> decide

/-- C9 as amended: a call of `GetOffset`, `GetNumSequences`, `GetNumSamples`,
`GetStartIndex` or `GetChunkSize` leaves the whole table as it was, and a call of
`SetOffset` leaves the start index, the chunk count, the row width and the size of the
buffer as they were. -/
theorem C9_reads_keep_table_and_SetOffset_keeps_start_index (t t' : OffsetsTable) (c : Call)
    (r : Ret) (h : t.call c = some (r, t')) :
    (c.isSetOffset = false → t' = t) ∧ t'.m_startIndex = t.m_startIndex ∧
      t'.m_numBatches = t.m_numBatches ∧ t'.m_offsetRowSize = t.m_offsetRowSize ∧
      t'.m_diskOffsetsTable.length = t.m_diskOffsetsTable.length := by
  cases c with
  | SetOffset id newOffset =>
    simp only [OffsetsTable.call, OffsetsTable.SetOffset, storeInt64, writeBytes,
      Option.map_map, Option.map_eq_some', Function.comp] at h
    obtain ⟨mem, hmem, hp⟩ := h
    split at hmem
    · rename_i hle
      rw [encodeLE_length] at hle
      cases hmem
      cases hp
      refine ⟨by simp [Call.isSetOffset], rfl, rfl, rfl, ?_⟩
      simp only [List.length_append, List.length_take, List.length_drop, encodeLE_length]
      omega
    · cases hmem
  | GetOffset index =>
    simp only [OffsetsTable.call, Option.map_eq_some'] at h
    obtain ⟨v, -, hp⟩ := h
    cases hp
    exact ⟨fun _ => rfl, rfl, rfl, rfl, rfl⟩
  | GetNumSequences index =>
    simp only [OffsetsTable.call, Option.map_eq_some'] at h
    obtain ⟨v, -, hp⟩ := h
    cases hp
    exact ⟨fun _ => rfl, rfl, rfl, rfl, rfl⟩
  | GetNumSamples index stream =>
    simp only [OffsetsTable.call, Option.map_eq_some'] at h
    obtain ⟨v, -, hp⟩ := h
    cases hp
    exact ⟨fun _ => rfl, rfl, rfl, rfl, rfl⟩
  | GetStartIndex index =>
    simp only [OffsetsTable.call, Option.map_eq_some'] at h
    obtain ⟨v, -, hp⟩ := h
    cases hp
    exact ⟨fun _ => rfl, rfl, rfl, rfl, rfl⟩
  | GetChunkSize index =>
    simp only [OffsetsTable.call, Option.map_eq_some'] at h
    obtain ⟨v, -, hp⟩ := h
    cases hp
    exact ⟨fun _ => rfl, rfl, rfl, rfl, rfl⟩

/-- C9 as amended, at `SetOffset(1, 7)` on the scenario table. -/
theorem C9_reads_keep_table_and_SetOffset_keeps_start_index_witness :
    ∃ t', scenarioTable.call (Call.SetOffset 1 7) = some (Ret.void, t') ∧
      (((Call.SetOffset 1 7).isSetOffset = false → t' = scenarioTable) ∧
        t'.m_startIndex = scenarioTable.m_startIndex ∧
        t'.m_numBatches = scenarioTable.m_numBatches ∧
        t'.m_offsetRowSize = scenarioTable.m_offsetRowSize ∧
        t'.m_diskOffsetsTable.length = scenarioTable.m_diskOffsetsTable.length) :=
  ⟨_, rfl, C9_reads_keep_table_and_SetOffset_keeps_start_index scenarioTable _
    (Call.SetOffset 1 7) Ret.void rfl⟩

/-- C10: for a stream count `n` with `8 + 4*(1+n)` below `2^63`, `GetOffsetRowSize(n)` is
`8 + 4*(1+n)`, every table constructed with stream count `n` stores it in
`m_offsetRowSize`, and each accessor of that table locates row `i` at byte
`i * (8 + 4*(1+n))` (a `size_t` product, so taken modulo `2^64`): `GetOffset` and
`SetOffset` there, `GetNumSequences` 8 bytes later and `GetNumSamples(i, s)` another
`4 + 4*s` bytes later. -/
theorem C10_row_stride_is_row_size (n : Nat) (hn : 8 + 4 * (1 + n) < 2 ^ 63) :
    OffsetsTable.GetOffsetRowSize n = ((8 + 4 * (1 + n) : Nat) : Int) ∧
    ∀ (uninit numChunks : Nat) (bytes : List Byte) (t : OffsetsTable),
      OffsetsTable.ctor uninit numChunks n bytes = some t →
      t.m_offsetRowSize = 8 + 4 * (1 + n) ∧
      ∀ i : Nat,
        t.GetOffset i = loadInt64 bytes (i * (8 + 4 * (1 + n)) % 2 ^ 64) ∧
        t.GetNumSequences i = loadInt32 bytes (i * (8 + 4 * (1 + n)) % 2 ^ 64 + 8) ∧
        (∀ s : Nat, s < 2 ^ 31 → t.GetNumSamples i (s : Int) =
          loadInt32 bytes (i * (8 + 4 * (1 + n)) % 2 ^ 64 + 8 + 4 + 4 * s)) ∧
        (∀ v : Int, (t.SetOffset i v).map OffsetsTable.m_diskOffsetsTable =
          storeInt64 bytes (i * (8 + 4 * (1 + n)) % 2 ^ 64) v) ∧
        (i * (8 + 4 * (1 + n)) < 2 ^ 64 →
          i * (8 + 4 * (1 + n)) % 2 ^ 64 = i * (8 + 4 * (1 + n))) := by
  constructor
  · unfold OffsetsTable.GetOffsetRowSize
    rw [toSigned_64_of_lt _ (by omega)]
    congr 1
    omega
  · intro uninit numChunks bytes t hctor
    obtain ⟨f1, f2, -, -⟩ := OffsetsTable.ctor_fields _ _ _ _ t hctor
    rw [Nat.mod_eq_of_lt (by omega)] at f1
    refine ⟨f1, ?_⟩
    intro i
    refine ⟨?_, ?_, ?_, ?_, fun h => Nat.mod_eq_of_lt h⟩
    · unfold OffsetsTable.GetOffset
      rw [f1, f2]
    · unfold OffsetsTable.GetNumSequences
      rw [f1, f2]
    · intro s hs
      have hsu : toUnsigned 64 (s : Int) * 4 % 2 ^ 64 = 4 * s := by
        unfold toUnsigned
        norm_num
        omega
      unfold OffsetsTable.GetNumSamples
      rw [if_neg (by omega), f1, f2, hsu]
    · intro v
      unfold OffsetsTable.SetOffset
      rw [f1, f2, Option.map_map]
      cases storeInt64 bytes (i * (8 + 4 * (1 + n)) % 2 ^ 64) v <;> rfl

/-- C10 at two streams: rows are 20 bytes wide and `GetOffset(2)` of the constructed
scenario table is the load at byte 40. -/
theorem C10_row_stride_is_row_size_witness :
    OffsetsTable.GetOffsetRowSize 2 = 20 ∧
    ∃ t, OffsetsTable.ctor 0 3 2 scenarioBytes = some t ∧ t.m_offsetRowSize = 20 ∧
      t.GetOffset 2 = loadInt64 scenarioBytes 40 ∧ t.GetOffset 2 = some 150 :=
  ⟨(C10_row_stride_is_row_size 2 (by norm_num)).1, _, rfl,
    ((C10_row_stride_is_row_size 2 (by norm_num)).2 0 3 scenarioBytes _ rfl).1,
    (((C10_row_stride_is_row_size 2 (by norm_num)).2 0 3 scenarioBytes _ rfl).2 2).1,
    by decide⟩


/-- C11: `SetOffset` changes exactly one field.  In a table of row width
`8 + 4*(1+numStreams)` whose buffer holds the `numChunks + 1` rows, for every row
`id ≤ numChunks` and every `int64_t` value `v` the call `SetOffset(id, v)` returns, after
it `GetOffset(id)` is `v`, and `GetOffset(j)` for every other row `j`, `GetNumSequences(j)`
and `GetNumSamples(j, s)` for every row `j` and stream `s < numStreams`, and
`GetStartIndex(j)` for every `j` are what they were; so `GetChunkSize(j)` is what it was
for every chunk `j` other than `id` and `id - 1`. -/
theorem C11_SetOffset_changes_only_the_offset_of_its_row (t : OffsetsTable)
    (numStreams numChunks id : Nat) (v : Int)
    (hw : t.m_offsetRowSize = 8 + 4 * (1 + numStreams))
    (hbuf : (numChunks + 1) * t.m_offsetRowSize ≤ t.m_diskOffsetsTable.length)
    (hlen : t.m_diskOffsetsTable.length < 2 ^ 64)
    (hid : id ≤ numChunks) (hv1 : -2 ^ 63 ≤ v) (hv2 : v < 2 ^ 63) :
    ∃ t', t.SetOffset id v = some t' ∧
      t'.GetOffset id = some v ∧
      (∀ j, j ≤ numChunks → j ≠ id → t'.GetOffset j = t.GetOffset j) ∧
      (∀ j, j ≤ numChunks → t'.GetNumSequences j = t.GetNumSequences j) ∧
      (∀ j (s : Int), j ≤ numChunks → s < (numStreams : Int) →
        t'.GetNumSamples j s = t.GetNumSamples j s) ∧
      (∀ j, t'.GetStartIndex j = t.GetStartIndex j) ∧
      (∀ j, j < numChunks → j ≠ id → j + 1 ≠ id →
        t'.GetChunkSize j = t.GetChunkSize j) := by
  have hrow : ∀ j, j ≤ numChunks →
      j * t.m_offsetRowSize + t.m_offsetRowSize ≤ t.m_diskOffsetsTable.length :=
    fun j hj => row_end_le j (numChunks + 1) t.m_offsetRowSize _ (by omega) hbuf
  have hmod : ∀ j, j ≤ numChunks →
      j * t.m_offsetRowSize % 2 ^ 64 = j * t.m_offsetRowSize :=
    fun j hj => Nat.mod_eq_of_lt (by have := hrow j hj; omega)
  have hlt : ∀ j k, j < k → j * t.m_offsetRowSize + t.m_offsetRowSize ≤
      k * t.m_offsetRowSize := by
    intro j k hjk
    have h1 : (j + 1) * t.m_offsetRowSize ≤ k * t.m_offsetRowSize :=
      Nat.mul_le_mul_right _ hjk
    have h2 : (j + 1) * t.m_offsetRowSize = j * t.m_offsetRowSize + t.m_offsetRowSize := by
      ring
    omega
  have hge : ∀ j k, k ≤ j → k * t.m_offsetRowSize ≤ j * t.m_offsetRowSize :=
    fun j k hjk => Nat.mul_le_mul_right _ hjk
  have hidrow := hrow id hid
  have hl8 : (encodeLE 8 (toUnsigned 64 v)).length = 8 := encodeLE_length 8 _
  obtain ⟨mem', hmem⟩ : ∃ mem', writeBytes t.m_diskOffsetsTable (id * t.m_offsetRowSize)
      (encodeLE 8 (toUnsigned 64 v)) = some mem' := by
    unfold writeBytes
    rw [if_pos (by rw [hl8]; omega)]
    exact ⟨_, rfl⟩
  have hset : t.SetOffset id v = some { t with m_diskOffsetsTable := mem' } := by
    unfold OffsetsTable.SetOffset storeInt64
    rw [hmod id hid, hmem]
    rfl
  have hseq : ∀ j, j ≤ numChunks →
      OffsetsTable.GetNumSequences { t with m_diskOffsetsTable := mem' } j =
        t.GetNumSequences j := by
    intro j hj
    unfold OffsetsTable.GetNumSequences loadInt32
    show Option.map _ (readBytes mem' _ 4) = _
    rw [hmod j hj, readBytes_writeBytes_disjoint _ _ _ _ _ 4 hmem]
    rw [hl8]
    rcases Nat.lt_or_ge j id with h | h
    · have := hlt j id h
      omega
    · have := hge j id h
      omega
  have hoff : ∀ j, j ≤ numChunks → j ≠ id →
      OffsetsTable.GetOffset { t with m_diskOffsetsTable := mem' } j = t.GetOffset j := by
    intro j hj hne
    unfold OffsetsTable.GetOffset loadInt64
    show Option.map _ (readBytes mem' _ 8) = _
    rw [hmod j hj, readBytes_writeBytes_disjoint _ _ _ _ _ 8 hmem]
    rw [hl8]
    rcases Nat.lt_or_ge j id with h | h
    · have := hlt j id h
      omega
    · have := hlt id j (by omega)
      omega
  refine ⟨_, hset, ?_, hoff, hseq, ?_, fun j => rfl, ?_⟩
  · unfold OffsetsTable.GetOffset loadInt64
    show Option.map _ (readBytes mem' _ 8) = _
    have hsame := readBytes_writeBytes_same _ _ _ _ hmem
    rw [hl8] at hsame
    rw [hmod id hid, hsame]
    simp only [Option.map_some', Option.some.injEq]
    have h8 : (256 : Nat) ^ 8 = 2 ^ 64 := by norm_num
    rw [decodeLE_encodeLE, h8, Nat.mod_eq_of_lt (toUnsigned_lt_64 _)]
    exact toSigned_toUnsigned_64 v hv1 hv2
  · intro j s hj hs
    rcases Int.lt_or_le s 0 with hneg | hpos
    · rw [OffsetsTable.GetNumSamples_of_neg _ j s hneg, OffsetsTable.GetNumSamples_of_neg _ j s hneg]
      exact hseq j hj
    · have hsu : toUnsigned 64 s * 4 % 2 ^ 64 = 4 * s.toNat := by
        unfold toUnsigned
        norm_num
        omega
      unfold OffsetsTable.GetNumSamples loadInt32
      rw [if_neg (by omega), if_neg (by omega)]
      show Option.map _ (readBytes mem' _ 4) = _
      rw [hmod j hj, hsu, readBytes_writeBytes_disjoint _ _ _ _ _ 4 hmem]
      rw [hl8]
      rcases Nat.lt_or_ge j id with h | h
      · have := hlt j id h
        omega
      · have := hge j id h
        omega
  · intro j hj hne1 hne2
    have h1 : j + 1 ≤ (j + 1) * t.m_offsetRowSize := Nat.le_mul_of_pos_right _ (by omega)
    have h2 := hrow (j + 1) (by omega)
    unfold OffsetsTable.GetChunkSize
    rw [Nat.mod_eq_of_lt (by omega), hoff (j + 1) (by omega) hne2, hoff j (by omega) hne1]

/-- C11 at `SetOffset(1, 7)` on the scenario table (two streams, three chunks). -/
theorem C11_SetOffset_changes_only_the_offset_of_its_row_witness :
    ∃ t', scenarioTable.SetOffset 1 7 = some t' ∧
      t'.GetOffset 1 = some 7 ∧
      (∀ j, j ≤ 3 → j ≠ 1 → t'.GetOffset j = scenarioTable.GetOffset j) ∧
      (∀ j, j ≤ 3 → t'.GetNumSequences j = scenarioTable.GetNumSequences j) ∧
      (∀ j (s : Int), j ≤ 3 → s < ((2 : Nat) : Int) →
        t'.GetNumSamples j s = scenarioTable.GetNumSamples j s) ∧
      (∀ j, t'.GetStartIndex j = scenarioTable.GetStartIndex j) ∧
      (∀ j, j < 3 → j ≠ 1 → j + 1 ≠ 1 →
        t'.GetChunkSize j = scenarioTable.GetChunkSize j) :=
  C11_SetOffset_changes_only_the_offset_of_its_row scenarioTable 2 3 1 7 (by decide)
    (by decide) (by decide) (by decide) (by norm_num) (by norm_num)

/-- C12, evaluated on the code.  The claim: the start-index pass of the constructor reads
rows `0 .. numChunks - 2` inside the buffer.  The pass runs before `m_offsetRowSize` is
assigned; over the 80 bytes of the scenario file (four rows of 20), with the member
holding 100, the second step of the loop asks `GetNumSequences(1)` for the four bytes at
address 108, outside the buffer, and the constructor has no defined result. -/
theorem C12_start_index_pass_leaves_the_buffer :
    scenarioBytes.length = (3 + 1) * (8 + 4 * (1 + 2)) ∧
      OffsetsTable.ctor 100 3 2 scenarioBytes = none ∧
      OffsetsTable.GetNumSequences
        { m_numBatches := 3, m_offsetRowSize := 100, m_diskOffsetsTable := scenarioBytes,
          m_startIndex := [0, 2, 0] } 1 = none ∧
      loadInt32 scenarioBytes (1 * 100 + 8) = none := by
  refine ⟨?_, ?_, ?_, ?_⟩ <;> decide

/-- C13 fails as stated: for chunk 0 at offset `2^63 - 1` and a sentinel offset `-2^63` the
offsets decrease, and `GetChunkSize(0)` returns `(-2^63 - (2^63 - 1)) mod 2^64 = 1`, which
is below `2^63`. -/
theorem C13_wrapped_chunk_size_below_2_pow_63_counterexample :
    ∃ t, OffsetsTable.ctor 0 1 0 farApartBytes = some t ∧
      t.GetOffset 0 = some 9223372036854775807 ∧
      t.GetOffset 1 = some (-9223372036854775808) ∧
      t.GetChunkSize 0 = some 1 ∧ ¬ (2 ^ 63 ≤ 1) := by
  refine ⟨_, rfl, ?_, ?_, ?_, ?_⟩ <;> decide

/-- C13 as amended: `GetChunkSize` rejects no pair of offsets.  Whenever the two offsets are
read, `GetChunkSize(i)` returns `(GetOffset(i+1) - GetOffset(i)) mod 2^64`; for a
decreasing pair that is `2^64` plus the negative difference, and it is at least `2^63`
when the difference is not below `-2^63`. -/
theorem C13_chunk_size_is_difference_modulo_2_pow_64 (t : OffsetsTable) (i : Nat)
    (lo hi : Int) (hi64 : i + 1 < 2 ^ 64)
    (hlo : t.GetOffset i = some lo) (hhi : t.GetOffset (i + 1) = some hi) :
    t.GetChunkSize i = some ((hi - lo) % 2 ^ 64).toNat ∧
      (hi < lo →
        ((((hi - lo) % 2 ^ 64).toNat : Nat) : Int) = 2 ^ 64 + (hi - lo) ∧
        (-2 ^ 63 ≤ hi - lo → 2 ^ 63 ≤ ((hi - lo) % 2 ^ 64).toNat)) := by
  refine ⟨t.GetChunkSize_of_offsets i lo hi hi64 hlo hhi, ?_⟩
  intro hdec
  have r0 := loadInt64_range _ _ lo hlo
  have r1 := loadInt64_range _ _ hi hhi
  constructor
  · omega
  · intro hd
    omega

/-- C13 as amended, at chunk 0 of the scenario table after `SetOffset(1, -5)`: the offsets
0 and -5 decrease and `GetChunkSize(0)` is `2^64 - 5`. -/
theorem C13_chunk_size_is_difference_modulo_2_pow_64_witness :
    ∃ t', scenarioTable.SetOffset 1 (-5) = some t' ∧
      t'.GetChunkSize 0 = some 18446744073709551611 ∧
      (t'.GetChunkSize 0 = some (((-5 : Int) - 0) % 2 ^ 64).toNat ∧
        ((-5 : Int) < 0 →
          (((((-5 : Int) - 0) % 2 ^ 64).toNat : Nat) : Int) = 2 ^ 64 + ((-5 : Int) - 0) ∧
          (-2 ^ 63 ≤ (-5 : Int) - 0 → 2 ^ 63 ≤ (((-5 : Int) - 0) % 2 ^ 64).toNat))) :=
  ⟨_, rfl, by decide,
    C13_chunk_size_is_difference_modulo_2_pow_64 _ 0 0 (-5) (by norm_num) (by decide)
      (by decide)⟩

end CNTK
